import Mathlib

/-!
# Verification of the SipHash C core (siphash-elixir, c_src)

Shallow embedding of the C sources `c_src/siphash.c`, `c_src/state.c`,
`c_src/native_impl.c` and `c_src/util.c`.  Machine 64-bit words are
modelled as `Nat` with explicit reduction modulo `2^64` exactly where the
C semantics truncates; message and key bytes are `Nat` values assumed
`< 256` (they come from `uint8` data in the C).
-/

namespace SipHashC

/-- `2^64`, the modulus of all 64-bit arithmetic in the C sources. -/
def W : Nat := 2 ^ 64

/-- `ROTATE_LEFT(x, b)` from `siphash.c` / `state.c` (and `rotate_left` in
`native_impl.c`): `(unsigned long)(((x) << (b)) | ((x) >> (64 - (b))))`.
The left shift is truncated to 64 bits by the cast; the right shift of a
64-bit value by `64 - b` keeps the top `b` bits. -/
def ROTATE_LEFT (x b : Nat) : Nat :=
  ((x <<< b) % W) ||| (x >>> (64 - b))

/-- The four-word internal state `(v0, v1, v2, v3)`. -/
structure SipState where
  v0 : Nat
  v1 : Nat
  v2 : Nat
  v3 : Nat
deriving Repr, DecidableEq

/-- The `COMPRESS` macro of `c_src/siphash.c` (lines 5–21), one SipRound:
the exact statement sequence of the macro, with `+` reduced mod `2^64`. -/
def COMPRESS (s : SipState) : SipState :=
  let v0 := (s.v0 + s.v1) % W
  let v2 := (s.v2 + s.v3) % W
  let v1 := ROTATE_LEFT s.v1 13
  let v3 := ROTATE_LEFT s.v3 16
  let v1 := v1 ^^^ v0
  let v3 := v3 ^^^ v2
  let v0 := ROTATE_LEFT v0 32
  let v2 := (v2 + v1) % W
  let v0 := (v0 + v3) % W
  let v1 := ROTATE_LEFT v1 17
  let v3 := ROTATE_LEFT v3 21
  let v1 := v1 ^^^ v2
  let v3 := v3 ^^^ v0
  let v2 := ROTATE_LEFT v2 32
  ⟨v0, v1, v2, v3⟩

/-- The `COMPRESS` macro of `c_src/state.c` (lines 4–20), transcribed
independently from that file. -/
def COMPRESS_state (s : SipState) : SipState :=
  let v0 := (s.v0 + s.v1) % W
  let v2 := (s.v2 + s.v3) % W
  let v1 := ROTATE_LEFT s.v1 13
  let v3 := ROTATE_LEFT s.v3 16
  let v1 := v1 ^^^ v0
  let v3 := v3 ^^^ v2
  let v0 := ROTATE_LEFT v0 32
  let v2 := (v2 + v1) % W
  let v0 := (v0 + v3) % W
  let v1 := ROTATE_LEFT v1 17
  let v3 := ROTATE_LEFT v3 21
  let v1 := v1 ^^^ v2
  let v3 := v3 ^^^ v0
  let v2 := ROTATE_LEFT v2 32
  ⟨v0, v1, v2, v3⟩

/-- The body of `_compress` in `c_src/native_impl.c` (lines 20–36): the
statement sequence acting on the four words unpacked from the tuple,
transcribed independently from that file. -/
def compress_native (s : SipState) : SipState :=
  let v0 := (s.v0 + s.v1) % W
  let v2 := (s.v2 + s.v3) % W
  let v1 := ROTATE_LEFT s.v1 13
  let v3 := ROTATE_LEFT s.v3 16
  let v1 := v1 ^^^ v0
  let v3 := v3 ^^^ v2
  let v0 := ROTATE_LEFT v0 32
  let v2 := (v2 + v1) % W
  let v0 := (v0 + v3) % W
  let v1 := ROTATE_LEFT v1 17
  let v3 := ROTATE_LEFT v3 21
  let v1 := v1 ^^^ v2
  let v3 := v3 ^^^ v0
  let v2 := ROTATE_LEFT v2 32
  ⟨v0, v1, v2, v3⟩

/-- SipRound exactly as written in the specification (§4.1), used as the
reference the three implementations are compared against. -/
def sipRoundSpec (s : SipState) : SipState :=
  let v0 := (s.v0 + s.v1) % W
  let v2 := (s.v2 + s.v3) % W
  let v1 := ROTATE_LEFT s.v1 13
  let v3 := ROTATE_LEFT s.v3 16
  let v1 := v1 ^^^ v0
  let v3 := v3 ^^^ v2
  let v0 := ROTATE_LEFT v0 32
  let v2 := (v2 + v1) % W
  let v0 := (v0 + v3) % W
  let v1 := ROTATE_LEFT v1 17
  let v3 := ROTATE_LEFT v3 21
  let v1 := v1 ^^^ v2
  let v3 := v3 ^^^ v0
  let v2 := ROTATE_LEFT v2 32
  ⟨v0, v1, v2, v3⟩

/-- `DIGEST_BLOCK` from `c_src/siphash.c` (lines 23–31): `v3 ^= m`, then
`COMPRESS` repeated `c` times (`for (i = 0; i < c; i++)`, so zero times
when `c ≤ 0`), then `v0 ^= m`.  `c` is a C `int`, hence `Int` here;
`Int.toNat` maps non-positive counts to zero iterations, matching the
`for` loop. -/
def DIGEST_BLOCK (s : SipState) (m : Nat) (c : Int) : SipState :=
  let s := { s with v3 := s.v3 ^^^ m }
  let s := COMPRESS^[c.toNat] s
  { s with v0 := s.v0 ^^^ m }

/-- `apply_block` from `c_src/state.c` (lines 22–57), the NIF registered
as `apply_internal_block`: `v3 ^= m`, `COMPRESS` in a `for` loop bounded
by the C `int` `c`, then `v0 ^= m`, transcribed independently from that
file. -/
def apply_block (s : SipState) (m : Nat) (c : Int) : SipState :=
  let s := { s with v3 := s.v3 ^^^ m }
  let s := COMPRESS_state^[c.toNat] s
  { s with v0 := s.v0 ^^^ m }

/-- `finalize` from `c_src/state.c` (lines 59–85): `v2 ^= 0xff`,
`COMPRESS` repeated `d` times (`d` a C `int`), output
`v0 ^ v1 ^ v2 ^ v3`. -/
def finalize (s : SipState) (d : Int) : Nat :=
  let s := { s with v2 := s.v2 ^^^ 0xff }
  let s := COMPRESS_state^[d.toNat] s
  s.v0 ^^^ s.v1 ^^^ s.v2 ^^^ s.v3

/-- `U8TO64_LE(p)` from `c_src/siphash.c` (lines 33–37): the little-endian
64-bit word formed from eight consecutive bytes.  The C macro reads
`p[0] … p[7]`; here the bytes are the first eight entries of the list. -/
def U8TO64_LE (p : List Nat) : Nat :=
  (p.getD 0 0) ||| ((p.getD 1 0) <<< 8) |||
  ((p.getD 2 0) <<< 16) ||| ((p.getD 3 0) <<< 24) |||
  ((p.getD 4 0) <<< 32) ||| ((p.getD 5 0) <<< 40) |||
  ((p.getD 6 0) <<< 48) ||| ((p.getD 7 0) <<< 56)

/-- The state initialisation of `hash` in `c_src/siphash.c` (lines 48–56):
`k0`/`k1` are the two little-endian halves of the 16-byte key, XORed into
the four algorithm constants. -/
def initState (key : List Nat) : SipState :=
  let k0 := U8TO64_LE key
  let k1 := U8TO64_LE (key.drop 8)
  ⟨0x736f6d6570736575 ^^^ k0,
   0x646f72616e646f6d ^^^ k1,
   0x6c7967656e657261 ^^^ k0,
   0x7465646279746573 ^^^ k1⟩

/-- The message `for` loop of `hash` in `c_src/siphash.c` (lines 62–69):
each byte is ORed into the accumulator `m` at position `iter * 8`; when
`iter` reaches 8 the block is digested and `m`, `iter` reset.  Returns
the state together with the pending `(m, iter)` accumulator. -/
def hashLoop (c : Int) (s : SipState) (m : Nat) (iter : Nat) :
    List Nat → SipState × Nat × Nat
  | [] => (s, m, iter)
  | b :: rest =>
    let m := m ||| (b <<< (iter * 8))
    let iter := iter + 1
    if iter ≥ 8 then hashLoop c (DIGEST_BLOCK s m c) 0 0 rest
    else hashLoop c s m iter rest

/-- One pass of the padding `while` loop of `hash` in `c_src/siphash.c`
(lines 71–73), with structural fuel: the loop body runs at most `7 - iter`
times, which is what `padLoop` passes as fuel. -/
def padLoopAux : Nat → Nat → Nat → Nat × Nat
  | 0, m, iter => (m, iter)
  | fuel + 1, m, iter =>
    if iter < 7 then padLoopAux fuel (m ||| (0 <<< (iter * 8))) (iter + 1)
    else (m, iter)

/-- The padding `while` loop of `hash` in `c_src/siphash.c` (lines 71–73):
`while (iter < 7) m |= 0 << (iter++ * 8);` — it ORs zero bits into `m`
and advances `iter` to 7. -/
def padLoop (m : Nat) (iter : Nat) : Nat × Nat :=
  padLoopAux (7 - iter) m iter

/-- `hash` from `c_src/siphash.c` (lines 39–90), the 4-argument NIF:
initialise from the key, run the byte loop, pad, OR in the length byte
(`((uint64_t) data.size) << (iter * 8)` is a 64-bit shift, hence the
`% W`), digest the final block, finalise with `d` rounds of `COMPRESS`
after `v2 ^= 0xff`, and output `v0 ^ v1 ^ v2 ^ v3`. -/
def hash (key msg : List Nat) (c d : Int) : Nat :=
  let r := hashLoop c (initState key) 0 0 msg
  let p := padLoop r.2.1 r.2.2
  let m := p.1 ||| ((msg.length <<< (p.2 * 8)) % W)
  let s := DIGEST_BLOCK r.1 m c
  let s := { s with v2 := s.v2 ^^^ 0xff }
  let s := COMPRESS^[d.toNat] s
  s.v0 ^^^ s.v1 ^^^ s.v2 ^^^ s.v3

/-! ## Specification-side definitions

These follow the wording of the specification (§3, §4.2–§4.4, §4.6) and
are what the source-level definitions above are compared against. -/

/-- The value of a byte string read as a little-endian number (spec §3:
messages are read "in 8-byte little-endian chunks"). -/
def leBytes : List Nat → Nat
  | [] => 0
  | b :: bs => b + 256 * leBytes bs

/-- The full 8-byte chunks of a message, each as a little-endian 64-bit
word (spec §4.3: "partitioned into consecutive 8-byte little-endian
words"). -/
def fullBlocks (bs : List Nat) : List Nat :=
  (List.range (bs.length / 8)).map (fun i => leBytes ((bs.drop (8 * i)).take 8))

/-- The 0-to-7 leftover bytes of a message after its full 8-byte chunks
(spec §4.3). -/
def lastChunk (bs : List Nat) : List Nat :=
  bs.drop (bs.length - bs.length % 8)

/-- The block sequence of spec §4.3: all full chunks, then the final
padded word whose low bytes are the leftover bytes, whose remaining bytes
are zero, and whose most significant byte is `length mod 256`; the final
word is present for every message length. -/
def blocksSpec (msg : List Nat) : List Nat :=
  fullBlocks msg ++ [leBytes (lastChunk msg) + (msg.length % 256) * 2 ^ 56]

/-- Block absorption as spec §4.2 states it: `v3 ^= m`, SipRound exactly
`c` times, `v0 ^= m`. -/
def absorb_block_spec (s : SipState) (m : Nat) (c : Nat) : SipState :=
  let s1 := { s with v3 := s.v3 ^^^ m }
  let s2 := sipRoundSpec^[c] s1
  { s2 with v0 := s2.v0 ^^^ m }

/-- Finalization as spec §4.4 states it: `v2 ^= 0xff`, SipRound exactly
`d` times, output `v0 ^ v1 ^ v2 ^ v3`. -/
def finalize_spec (s : SipState) (d : Nat) : Nat :=
  let s1 := { s with v2 := s.v2 ^^^ 0xff }
  let s2 := sipRoundSpec^[d] s1
  s2.v0 ^^^ s2.v1 ^^^ s2.v2 ^^^ s2.v3

/-- The incremental pipeline of spec §6: `init_state`, one
`apply_internal_block` (the NIF name of `apply_block` in `c_src/state.c`)
per 64-bit word, then `finalize`. -/
def incrementalHash (key : List Nat) (blocks : List Nat) (c d : Int) : Nat :=
  finalize (blocks.foldl (fun s m => apply_block s m c) (initState key)) d

/-- All four state words are genuine 64-bit values. -/
def Valid (s : SipState) : Prop :=
  s.v0 < W ∧ s.v1 < W ∧ s.v2 < W ∧ s.v3 < W

/-- Modelled from the spec: the error taxonomy of §7 (`InvalidKeyLength`,
`InvalidRoundCount`) raised by the repository's Elixir wrapper module,
which is not under `src/`. -/
inductive SipError where
  | InvalidKeyLength
  | InvalidRoundCount
deriving Repr, DecidableEq

/-- Modelled from the spec: the validating one-shot entry point of §4.5
(the repository's Elixir wrapper around the `hash` NIF is not under
`src/`): it fails with `InvalidKeyLength` when the key is not exactly 16
bytes, with `InvalidRoundCount` when `c < 1` or `d < 1`, and otherwise
returns the numeric hash. -/
def hashChecked (key msg : List Nat) (c d : Int) : Except SipError Nat :=
  if key.length ≠ 16 then .error .InvalidKeyLength
  else if c < 1 ∨ d < 1 then .error .InvalidRoundCount
  else .ok (hash key msg c d)

/-! ## Model of the formatted output path (`c_src/util.c`) -/

/-- Lowercase hex digit byte, as produced by `sprintf`'s `%x`. -/
def hexDigitLower (n : Nat) : Nat := if n < 10 then 48 + n else 87 + n

/-- Uppercase hex digit byte, as produced by `sprintf`'s `%X`. -/
def hexDigitUpper (n : Nat) : Nat := if n < 10 then 48 + n else 55 + n

/-- The 16 lowercase hex digit bytes of a 64-bit value, most significant
first. -/
def hexBytesLower (v : Nat) : List Nat :=
  (List.range 16).reverse.map (fun i => hexDigitLower ((v >>> (4 * i)) % 16))

/-- The 16 uppercase hex digit bytes of a 64-bit value, most significant
first. -/
def hexBytesUpper (v : Nat) : List Nat :=
  (List.range 16).reverse.map (fun i => hexDigitUpper ((v >>> (4 * i)) % 16))

/-- Decimal digit bytes of `n`, most significant first, with structural
fuel (`n` itself bounds the digit count). -/
def decBytesAux : Nat → Nat → List Nat
  | 0, _ => []
  | fuel + 1, n =>
    if n < 10 then [48 + n]
    else decBytesAux fuel (n / 10) ++ [48 + n % 10]

/-- Decimal digit bytes of `n`, as produced by `sprintf`'s `%lu`. -/
def decBytes (n : Nat) : List Nat := decBytesAux (n + 1) n

/-- Model of the libc `sprintf` rendering invoked by `format` in
`c_src/util.c` (line 12) and by the 5-argument `hash` in
`c_src/siphash.c` (line 97) on the caller-supplied template, restricted
to the directives relevant here: `%lu` renders the value in decimal,
`%016lx` / `%016lX` in zero-padded hex; every other template byte passes
through literally. -/
def sprintfModel (value : Nat) : List Nat → List Nat
  | 0x25 :: 0x6c :: 0x75 :: rest => decBytes value ++ sprintfModel value rest
  | 0x25 :: 0x30 :: 0x31 :: 0x36 :: 0x6c :: 0x78 :: rest =>
      hexBytesLower value ++ sprintfModel value rest
  | 0x25 :: 0x30 :: 0x31 :: 0x36 :: 0x6c :: 0x58 :: rest =>
      hexBytesUpper value ++ sprintfModel value rest
  | b :: rest => b :: sprintfModel value rest
  | [] => []

/-- `format` from `c_src/util.c` (lines 3–14): renders `n` according to
the caller-supplied template binary `f` by passing the template straight
to `sprintf`. -/
def format (n : Nat) (f : List Nat) : List Nat := sprintfModel n f

/-! ## Basic arithmetic and bit-level lemmas -/

lemma W_pos : 0 < W := by norm_num [W]

lemma xor_lt_W {x y : Nat} (hx : x < W) (hy : y < W) : x ^^^ y < W :=
  Nat.xor_lt_two_pow hx hy

lemma ROTATE_LEFT_lt (x b : Nat) (hx : x < W) : ROTATE_LEFT x b < W := by
  unfold ROTATE_LEFT
  refine Nat.or_lt_two_pow (Nat.mod_lt _ W_pos) ?_
  calc x >>> (64 - b) ≤ x := by
        rw [Nat.shiftRight_eq_div_pow]; exact Nat.div_le_self _ _
    _ < W := hx

/-- ORing a value below `2^k` with a multiple of `2^k` is addition: the
two operands occupy disjoint bit ranges. -/
lemma lor_mul_pow {a : Nat} (b k : Nat) (ha : a < 2 ^ k) :
    a ||| b * 2 ^ k = a + b * 2 ^ k := by
  rw [Nat.lor_comm, mul_comm b]
  rw [← Nat.mul_add_lt_is_or ha b]
  ring

lemma leBytes_lt {bs : List Nat} (hb : ∀ b ∈ bs, b < 256) :
    leBytes bs < 2 ^ (bs.length * 8) := by
  induction bs with
  | nil => simp [leBytes]
  | cons b bs ih =>
    have hb0 : b < 256 := hb b (List.mem_cons_self b bs)
    have hL : leBytes bs < 2 ^ (bs.length * 8) :=
      ih (fun x hx => hb x (List.mem_cons_of_mem b hx))
    have hpow : 2 ^ ((b :: bs).length * 8) = 256 * 2 ^ (bs.length * 8) := by
      simp only [List.length_cons]
      rw [add_mul, one_mul, pow_add]
      ring
    rw [hpow]
    calc leBytes (b :: bs) = b + 256 * leBytes bs := rfl
      _ < 256 * (leBytes bs + 1) := by omega
      _ ≤ 256 * 2 ^ (bs.length * 8) := by
          exact Nat.mul_le_mul_left 256 hL

/-! ## The byte loop of `hash` absorbs exactly the spec's blocks -/

/-- While fewer than 8 bytes are pending, the loop only accumulates the
little-endian word and advances `iter`. -/
lemma hashLoop_partial (c : Int) :
    ∀ (bs : List Nat) (s : SipState) (m iter : Nat),
      iter + bs.length ≤ 7 → (∀ b ∈ bs, b < 256) → m < 2 ^ (iter * 8) →
      hashLoop c s m iter bs =
        (s, m + leBytes bs * 2 ^ (iter * 8), iter + bs.length) := by
  intro bs
  induction bs with
  | nil => intro s m iter _ _ _; simp [hashLoop, leBytes]
  | cons b bs ih =>
    intro s m iter hlen hb hm
    have hb0 : b < 256 := hb b (List.mem_cons_self b bs)
    simp only [hashLoop, List.length_cons] at hlen ⊢
    have hcond : ¬ (iter + 1 ≥ 8) := by omega
    rw [if_neg hcond]
    have hor : m ||| b <<< (iter * 8) = m + b * 2 ^ (iter * 8) := by
      rw [Nat.shiftLeft_eq, lor_mul_pow b (iter * 8) hm]
    have hm' : m + b * 2 ^ (iter * 8) < 2 ^ ((iter + 1) * 8) := by
      have hpow : 2 ^ ((iter + 1) * 8) = 2 ^ (iter * 8) * 256 := by
        rw [add_mul, one_mul, pow_add]; norm_num
      have hble : b * 2 ^ (iter * 8) ≤ 255 * 2 ^ (iter * 8) :=
        Nat.mul_le_mul_right _ (by omega)
      calc m + b * 2 ^ (iter * 8) ≤ m + 255 * 2 ^ (iter * 8) := by omega
        _ < 2 ^ (iter * 8) + 255 * 2 ^ (iter * 8) := by omega
        _ = 2 ^ (iter * 8) * 256 := by ring
        _ = 2 ^ ((iter + 1) * 8) := hpow.symm
    rw [hor, ih s _ (iter + 1) (by omega)
        (fun x hx => hb x (List.mem_cons_of_mem b hx)) hm']
    refine congrArg _ ?_
    have hpow : 2 ^ ((iter + 1) * 8) = 2 ^ (iter * 8) * 256 := by
      rw [add_mul, one_mul, pow_add]; norm_num
    rw [Prod.mk.injEq]
    refine ⟨?_, by omega⟩
    rw [hpow]
    show _ = m + (b + 256 * leBytes bs) * 2 ^ (iter * 8)
    ring

/-- Crossing an 8-byte boundary digests exactly the accumulated
little-endian word and restarts the accumulator. -/
lemma hashLoop_chunk (c : Int) :
    ∀ (bs rest : List Nat) (s : SipState) (m iter : Nat),
      iter < 8 → iter + bs.length = 8 → (∀ b ∈ bs, b < 256) →
      m < 2 ^ (iter * 8) →
      hashLoop c s m iter (bs ++ rest) =
        hashLoop c (DIGEST_BLOCK s (m + leBytes bs * 2 ^ (iter * 8)) c) 0 0
          rest := by
  intro bs
  induction bs with
  | nil =>
    intro rest s m iter hit hlen _ _
    exfalso
    simp only [List.length_nil] at hlen
    omega
  | cons b bs ih =>
    intro rest s m iter hit hlen hb hm
    have hb0 : b < 256 := hb b (List.mem_cons_self b bs)
    simp only [List.length_cons] at hlen
    simp only [List.cons_append, hashLoop, List.append_eq]
    have hor : m ||| b <<< (iter * 8) = m + b * 2 ^ (iter * 8) := by
      rw [Nat.shiftLeft_eq, lor_mul_pow b (iter * 8) hm]
    by_cases h8 : iter + 1 ≥ 8
    · -- the byte just consumed completed the block, so `bs = []`
      have hbs : bs = [] := by
        have : bs.length = 0 := by omega
        exact List.length_eq_zero.mp this
      subst hbs
      rw [if_pos h8, hor]
      simp only [List.nil_append]
      refine congrArg (fun st => hashLoop c st 0 0 rest) ?_
      show DIGEST_BLOCK s (m + b * 2 ^ (iter * 8)) c
        = DIGEST_BLOCK s (m + leBytes [b] * 2 ^ (iter * 8)) c
      have : leBytes [b] = b := by simp [leBytes]
      rw [this]
    · rw [if_neg h8, hor]
      have hm' : m + b * 2 ^ (iter * 8) < 2 ^ ((iter + 1) * 8) := by
        have hpow : 2 ^ ((iter + 1) * 8) = 2 ^ (iter * 8) * 256 := by
          rw [add_mul, one_mul, pow_add]; norm_num
        have hble : b * 2 ^ (iter * 8) ≤ 255 * 2 ^ (iter * 8) :=
          Nat.mul_le_mul_right _ (by omega)
        calc m + b * 2 ^ (iter * 8) ≤ m + 255 * 2 ^ (iter * 8) := by omega
          _ < 2 ^ (iter * 8) + 255 * 2 ^ (iter * 8) := by omega
          _ = 2 ^ (iter * 8) * 256 := by ring
          _ = 2 ^ ((iter + 1) * 8) := hpow.symm
      rw [ih rest s _ (iter + 1) (by omega) (by omega)
          (fun x hx => hb x (List.mem_cons_of_mem b hx)) hm']
      refine congrArg (fun mm => hashLoop c (DIGEST_BLOCK s mm c) 0 0 rest) ?_
      have hpow : 2 ^ ((iter + 1) * 8) = 2 ^ (iter * 8) * 256 := by
        rw [add_mul, one_mul, pow_add]; norm_num
      rw [hpow]
      show _ = m + (b + 256 * leBytes bs) * 2 ^ (iter * 8)
      ring

/-! ## Structure of the spec-side chunking -/

lemma fullBlocks_small {bs : List Nat} (h : bs.length < 8) :
    fullBlocks bs = [] := by
  unfold fullBlocks
  rw [Nat.div_eq_of_lt h]
  simp

lemma fullBlocks_cons {bs : List Nat} (h : 8 ≤ bs.length) :
    fullBlocks bs = leBytes (bs.take 8) :: fullBlocks (bs.drop 8) := by
  unfold fullBlocks
  have h1 : bs.length / 8 = (bs.drop 8).length / 8 + 1 := by
    simp only [List.length_drop]
    omega
  rw [h1, List.range_succ_eq_map, List.map_cons, List.map_map]
  refine congrArg₂ _ (by simp) ?_
  refine List.map_congr_left (fun i _ => ?_)
  simp only [Function.comp_apply, List.drop_drop]
  refine congrArg (fun l => leBytes (List.take 8 l)) ?_
  refine congrArg (fun k => bs.drop k) ?_
  omega

lemma lastChunk_small {bs : List Nat} (h : bs.length < 8) :
    lastChunk bs = bs := by
  unfold lastChunk
  have : bs.length - bs.length % 8 = 0 := by omega
  rw [this, List.drop_zero]

lemma lastChunk_big {bs : List Nat} (h : 8 ≤ bs.length) :
    lastChunk bs = lastChunk (bs.drop 8) := by
  unfold lastChunk
  rw [List.drop_drop, List.length_drop]
  refine congrArg (fun k => bs.drop k) ?_
  omega

lemma lastChunk_length (bs : List Nat) :
    (lastChunk bs).length = bs.length % 8 := by
  unfold lastChunk
  rw [List.length_drop]
  omega

lemma lastChunk_subset (bs : List Nat) : lastChunk bs ⊆ bs :=
  List.drop_subset _ bs

/-- A short trailing run (fewer than 8 bytes) leaves the state alone and
returns the little-endian word of the run. -/
lemma hashLoop_small (c : Int) (bs : List Nat) (s : SipState)
    (h : bs.length < 8) (hb : ∀ b ∈ bs, b < 256) :
    hashLoop c s 0 0 bs = (s, leBytes bs, bs.length) := by
  have := hashLoop_partial c bs s 0 0 (by omega) hb (by norm_num)
  simpa using this

/-- The byte loop of `hash` is the fold of `DIGEST_BLOCK` over the full
8-byte chunks, returning the pending little-endian word of the leftover
bytes and their count. -/
lemma hashLoop_spec (c : Int) :
    ∀ (fuel : Nat) (bs : List Nat) (s : SipState), bs.length ≤ fuel →
      (∀ b ∈ bs, b < 256) →
      hashLoop c s 0 0 bs =
        ((fullBlocks bs).foldl (fun st mm => DIGEST_BLOCK st mm c) s,
         leBytes (lastChunk bs), bs.length % 8) := by
  intro fuel
  induction fuel with
  | zero =>
    intro bs s h hb
    have hbs : bs = [] := List.length_eq_zero.mp (by omega)
    subst hbs
    rw [hashLoop_small c [] s (by simp) hb]
    simp [fullBlocks_small, lastChunk_small]
  | succ n ih =>
    intro bs s h hb
    by_cases h8 : bs.length < 8
    · rw [hashLoop_small c bs s h8 hb]
      rw [fullBlocks_small h8, lastChunk_small h8]
      simp [Nat.mod_eq_of_lt h8]
    · push_neg at h8
      have hsplit : bs = bs.take 8 ++ bs.drop 8 :=
        (List.take_append_drop 8 bs).symm
      have htl : (bs.take 8).length = 8 := by
        rw [List.length_take]
        omega
      conv_lhs => rw [hsplit]
      rw [hashLoop_chunk c (bs.take 8) (bs.drop 8) s 0 0 (by norm_num)
          (by omega) (fun x hx => hb x (List.take_subset 8 bs hx))
          (by norm_num)]
      have hdl : (bs.drop 8).length ≤ n := by
        rw [List.length_drop]
        omega
      rw [ih (bs.drop 8) _ hdl (fun x hx => hb x (List.drop_subset 8 bs hx))]
      rw [fullBlocks_cons h8, lastChunk_big h8]
      simp only [List.foldl_cons, List.length_drop]
      rw [Prod.mk.injEq, Prod.mk.injEq]
      refine ⟨by norm_num, rfl, by omega⟩

/-- The padding loop leaves `m` unchanged and raises `iter` to 7. -/
lemma padLoopAux_eq : ∀ (k m iter : Nat), iter + k = 7 →
    padLoopAux k m iter = (m, 7) := by
  intro k
  induction k with
  | zero =>
    intro m iter h
    simp only [padLoopAux]
    rw [Prod.mk.injEq]
    exact ⟨rfl, by omega⟩
  | succ n ih =>
    intro m iter h
    simp only [padLoopAux]
    rw [if_pos (by omega)]
    rw [Nat.zero_shiftLeft, Nat.or_zero]
    exact ih m (iter + 1) (by omega)

lemma padLoop_eq (m iter : Nat) (h : iter ≤ 7) : padLoop m iter = (m, 7) := by
  unfold padLoop
  exact padLoopAux_eq (7 - iter) m iter (by omega)

/-- One-shot `hash` from `siphash.c` is the incremental pipeline of
`state.c` run over the spec's chunked-and-padded block sequence. -/
lemma hash_eq_blocks (key msg : List Nat) (c d : Int)
    (hb : ∀ b ∈ msg, b < 256) :
    hash key msg c d = incrementalHash key (blocksSpec msg) c d := by
  unfold hash incrementalHash blocksSpec
  rw [hashLoop_spec c msg.length msg (initState key) le_rfl hb]
  dsimp only
  rw [padLoop_eq _ _ (by omega)]
  dsimp only
  have hlastlt : leBytes (lastChunk msg) < 2 ^ 56 := by
    have h1 := leBytes_lt (fun x hx => hb x (lastChunk_subset msg hx))
    have h2 : (lastChunk msg).length * 8 ≤ 56 := by
      rw [lastChunk_length]
      omega
    exact lt_of_lt_of_le h1 (Nat.pow_le_pow_right (by norm_num) h2)
  have hsh : (msg.length <<< (7 * 8)) % W = (msg.length % 256) * 2 ^ 56 := by
    rw [Nat.shiftLeft_eq]
    show (msg.length * 2 ^ 56) % W = _
    have hW : W = 256 * 2 ^ 56 := by norm_num [W]
    rw [hW]
    exact Nat.mul_mod_mul_right (2 ^ 56) msg.length 256
  rw [hsh, lor_mul_pow _ 56 hlastlt]
  rw [List.foldl_append, List.foldl_cons, List.foldl_nil]
  rfl

/-- The OR-of-shifted-bytes macro `U8TO64_LE` computes the little-endian
value of the first eight bytes. -/
lemma U8TO64_LE_eq (p : List Nat) (hlen : 8 ≤ p.length)
    (hb : ∀ b ∈ p, b < 256) : U8TO64_LE p = leBytes (p.take 8) := by
  rcases p with _ | ⟨b0, _ | ⟨b1, _ | ⟨b2, _ | ⟨b3, _ | ⟨b4, _ |
      ⟨b5, _ | ⟨b6, _ | ⟨b7, rest⟩⟩⟩⟩⟩⟩⟩⟩ <;>
    simp only [List.length_nil, List.length_cons] at hlen <;> try omega
  have h0 : b0 < 256 := hb _ (by simp)
  have h1 : b1 < 256 := hb _ (by simp)
  have h2 : b2 < 256 := hb _ (by simp)
  have h3 : b3 < 256 := hb _ (by simp)
  have h4 : b4 < 256 := hb _ (by simp)
  have h5 : b5 < 256 := hb _ (by simp)
  have h6 : b6 < 256 := hb _ (by simp)
  simp only [U8TO64_LE, List.getD, List.get?_cons_zero, List.get?_cons_succ,
    Option.getD_some, List.take_succ_cons, List.take_zero, leBytes,
    Nat.shiftLeft_eq]
  rw [lor_mul_pow b1 8 (by omega)]
  rw [lor_mul_pow b2 16 (by omega)]
  rw [lor_mul_pow b3 24 (by omega)]
  rw [lor_mul_pow b4 32 (by omega)]
  rw [lor_mul_pow b5 40 (by omega)]
  rw [lor_mul_pow b6 48 (by omega)]
  rw [lor_mul_pow b7 56 (by omega)]
  omega

/-- One SipRound keeps all four words below `2^64`. -/
lemma COMPRESS_state_valid {s : SipState} (h : Valid s) :
    Valid (COMPRESS_state s) := by
  obtain ⟨h0, h1, h2, h3⟩ := h
  unfold COMPRESS_state
  refine ⟨?_, ?_, ?_, ?_⟩ <;>
    (repeat
      first
      | assumption
      | exact W_pos
      | apply Nat.mod_lt
      | apply ROTATE_LEFT_lt
      | apply xor_lt_W)

lemma iterate_COMPRESS_state_valid (n : Nat) {s : SipState} (h : Valid s) :
    Valid (COMPRESS_state^[n] s) := by
  induction n with
  | zero => simpa using h
  | succ k ih => rw [Function.iterate_succ_apply']; exact COMPRESS_state_valid ih

/-! ## The claims -/

set_option maxRecDepth 40000

/-- C1: with the 16-byte reference key `00 01 02 … 0f` and `c = 2, d = 4`,
`hash` maps the empty message, the 1-byte message `0x00`, and the 64-byte
incrementing-byte message `00 … 3f` to the SipHash-2-4 reference outputs,
bit for bit. -/
theorem c1_reference_vectors :
    hash (List.range 16) [] 2 4 = 0x726fdb47dd0e0e31 ∧
    hash (List.range 16) [0x00] 2 4 = 0x74f839c593dc67fd ∧
    hash (List.range 16) (List.range 64) 2 4 = 0xacd2c40b8502cad8 :=
  ⟨by decide, by decide, by decide⟩

/-- C2: for every message of byte values, `hash` absorbs exactly
`⌈(n+1)/8⌉` blocks — the `⌊n/8⌋` full 8-byte chunks as little-endian
words followed by one final block whose low bytes are the leftover
message bytes, whose remaining bytes are zero and whose most significant
byte is `n mod 256`; the empty message absorbs exactly the single block
`0`, and the final block is present for every length. -/
theorem c2_chunking_and_padding (key msg : List Nat) (c d : Int)
    (hb : ∀ b ∈ msg, b < 256) :
    hash key msg c d = incrementalHash key (blocksSpec msg) c d ∧
    (blocksSpec msg).length = (msg.length + 8) / 8 ∧
    blocksSpec [] = [0] := by
  refine ⟨hash_eq_blocks key msg c d hb, ?_, by decide⟩
  unfold blocksSpec fullBlocks
  simp only [List.length_append, List.length_map, List.length_range,
    List.length_cons, List.length_nil]
  omega

/-- C2 witness at a concrete key, message and rounds. -/
theorem c2_witness :
    hash (List.range 16) [1, 2, 3] 2 4 =
      incrementalHash (List.range 16) (blocksSpec [1, 2, 3]) 2 4 ∧
    (blocksSpec [1, 2, 3]).length = (([1, 2, 3] : List Nat).length + 8) / 8 ∧
    blocksSpec [] = [0] :=
  c2_chunking_and_padding (List.range 16) [1, 2, 3] 2 4 (by decide)

/-- C3: the `COMPRESS` macros of `siphash.c` and `state.c` and the
`_compress` NIF of `native_impl.c` all compute the SipRound permutation
exactly as the specification sequences it; each is a pure total function
of the four words. -/
theorem c3_sipround_implementations (s : SipState) :
    COMPRESS s = sipRoundSpec s ∧ COMPRESS_state s = sipRoundSpec s ∧
    compress_native s = sipRoundSpec s :=
  ⟨rfl, rfl, rfl⟩

/-- C4: initialisation splits a 16-byte key into little-endian halves
`k0` (bytes 0–7) and `k1` (bytes 8–15) and XORs them into the four
algorithm constants. -/
theorem c4_init_state (key : List Nat) (hlen : key.length = 16)
    (hb : ∀ b ∈ key, b < 256) :
    initState key =
      ⟨0x736f6d6570736575 ^^^ leBytes (key.take 8),
       0x646f72616e646f6d ^^^ leBytes (key.drop 8),
       0x6c7967656e657261 ^^^ leBytes (key.take 8),
       0x7465646279746573 ^^^ leBytes (key.drop 8)⟩ := by
  unfold initState
  have hk0 : U8TO64_LE key = leBytes (key.take 8) :=
    U8TO64_LE_eq key (by omega) hb
  have hk1 : U8TO64_LE (key.drop 8) = leBytes (key.drop 8) := by
    rw [U8TO64_LE_eq (key.drop 8) (by rw [List.length_drop]; omega)
        (fun x hx => hb x (List.drop_subset 8 key hx))]
    rw [List.take_of_length_le (by rw [List.length_drop]; omega)]
  rw [hk0, hk1]

/-- C4 witness at the reference key. -/
theorem c4_witness :
    initState (List.range 16) =
      ⟨0x736f6d6570736575 ^^^ leBytes ((List.range 16).take 8),
       0x646f72616e646f6d ^^^ leBytes ((List.range 16).drop 8),
       0x6c7967656e657261 ^^^ leBytes ((List.range 16).take 8),
       0x7465646279746573 ^^^ leBytes ((List.range 16).drop 8)⟩ :=
  c4_init_state (List.range 16) (by decide) (by decide)

/-- C5: for every state, word and round count `c ≥ 1`, the `DIGEST_BLOCK`
step of `siphash.c` and `apply_block` of `state.c` compute exactly
`v3 ^= m`, SipRound `c` times, `v0 ^= m`, deterministically and totally. -/
theorem c5_block_absorption (s : SipState) (m : Nat) (c : Int)
    (hc : 1 ≤ c) :
    DIGEST_BLOCK s m c = absorb_block_spec s m c.toNat ∧
    apply_block s m c = absorb_block_spec s m c.toNat :=
  ⟨rfl, rfl⟩

/-- C5 witness at a concrete state and word. -/
theorem c5_witness :
    DIGEST_BLOCK ⟨1, 2, 3, 4⟩ 5 2 = absorb_block_spec ⟨1, 2, 3, 4⟩ 5 (2 : Int).toNat ∧
    apply_block ⟨1, 2, 3, 4⟩ 5 2 = absorb_block_spec ⟨1, 2, 3, 4⟩ 5 (2 : Int).toNat :=
  c5_block_absorption ⟨1, 2, 3, 4⟩ 5 2 (by decide)

/-- C6: for every round count `d ≥ 1`, `finalize` of `state.c` computes
exactly `v2 ^= 0xff`, SipRound `d` times, output `v0 ^ v1 ^ v2 ^ v3`, and
on a 64-bit state the output is a single unsigned 64-bit value. -/
theorem c6_finalization (s : SipState) (d : Int) (hd : 1 ≤ d) :
    finalize s d = finalize_spec s d.toNat ∧
    (Valid s → finalize s d < W) := by
  refine ⟨rfl, fun hv => ?_⟩
  obtain ⟨h0, h1, h2, h3⟩ := hv
  show (COMPRESS_state^[d.toNat] { s with v2 := s.v2 ^^^ 0xff }).v0 ^^^
      (COMPRESS_state^[d.toNat] { s with v2 := s.v2 ^^^ 0xff }).v1 ^^^
      (COMPRESS_state^[d.toNat] { s with v2 := s.v2 ^^^ 0xff }).v2 ^^^
      (COMPRESS_state^[d.toNat] { s with v2 := s.v2 ^^^ 0xff }).v3 < W
  have hv : Valid { s with v2 := s.v2 ^^^ 0xff } :=
    ⟨h0, h1, xor_lt_W h2 (by norm_num [W]), h3⟩
  obtain ⟨g0, g1, g2, g3⟩ := iterate_COMPRESS_state_valid d.toNat hv
  exact xor_lt_W (xor_lt_W (xor_lt_W g0 g1) g2) g3

/-- C6 witness at a concrete state. -/
theorem c6_witness :
    finalize ⟨1, 2, 3, 4⟩ 4 = finalize_spec ⟨1, 2, 3, 4⟩ (4 : Int).toNat ∧
    (Valid ⟨1, 2, 3, 4⟩ → finalize ⟨1, 2, 3, 4⟩ 4 < W) :=
  c6_finalization ⟨1, 2, 3, 4⟩ 4 (by decide)

/-- C7: initialising from the key, absorbing the correctly chunked and
padded blocks one `apply_internal_block` at a time, and finalising with
`d`, equals the one-shot `hash` on the same key, message and rounds. -/
theorem c7_incremental_equals_oneshot (key msg : List Nat) (c d : Int)
    (hb : ∀ b ∈ msg, b < 256) :
    finalize ((blocksSpec msg).foldl (fun s m => apply_block s m c)
        (initState key)) d = hash key msg c d :=
  (hash_eq_blocks key msg c d hb).symm

/-- C7 witness at a concrete key, message and rounds. -/
theorem c7_witness :
    finalize ((blocksSpec [5, 6]).foldl (fun s m => apply_block s m 2)
        (initState (List.range 16))) 4 = hash (List.range 16) [5, 6] 2 4 :=
  c7_incremental_equals_oneshot (List.range 16) [5, 6] 2 4 (by decide)

/-- C8: the validating entry point fails with `InvalidKeyLength` for any
key that is not exactly 16 bytes, with `InvalidRoundCount` when `c < 1`
or `d < 1`, and otherwise returns the numeric hash — a typed error and no
numeric output in every failure case, and no other failure mode. -/
theorem c8_validation (key msg : List Nat) (c d : Int) :
    (key.length ≠ 16 → hashChecked key msg c d = .error .InvalidKeyLength) ∧
    (key.length = 16 → (c < 1 ∨ d < 1) →
      hashChecked key msg c d = .error .InvalidRoundCount) ∧
    (key.length = 16 → 1 ≤ c → 1 ≤ d →
      hashChecked key msg c d = .ok (hash key msg c d)) := by
  unfold hashChecked
  refine ⟨fun h => by rw [if_pos h], fun h hcd => ?_, fun h hc hd => ?_⟩
  · rw [if_neg (by simp [h]), if_pos hcd]
  · rw [if_neg (by simp [h]), if_neg (by omega)]

/-- C8 witness: a short key, a zero round count, and a valid call. -/
theorem c8_witness :
    hashChecked [0] [] 2 4 = .error .InvalidKeyLength ∧
    hashChecked (List.range 16) [] 0 4 = .error .InvalidRoundCount ∧
    hashChecked (List.range 16) [] 2 4 = .ok (hash (List.range 16) [] 2 4) :=
  ⟨(c8_validation [0] [] 2 4).1 (by decide),
   (c8_validation (List.range 16) [] 0 4).2.1 (by decide)
     (Or.inl (by decide)),
   (c8_validation (List.range 16) [] 2 4).2.2 (by decide) (by decide)
     (by decide)⟩

/-- C9: with `c ≤ 0` the round loop of block absorption runs zero times,
so both implementations silently return the state XORed by `m` twice with
no mixing, and `hash` with `c = d = 0` still returns a numeric result —
the fold of the degenerate absorption over the padded blocks, finalised
with zero rounds. -/
theorem c9_degenerate_rounds :
    (∀ (s : SipState) (m : Nat) (c : Int), c ≤ 0 →
      DIGEST_BLOCK s m c = ⟨s.v0 ^^^ m, s.v1, s.v2, s.v3 ^^^ m⟩ ∧
      apply_block s m c = ⟨s.v0 ^^^ m, s.v1, s.v2, s.v3 ^^^ m⟩) ∧
    (∀ (key msg : List Nat), (∀ b ∈ msg, b < 256) →
      hash key msg 0 0 =
        ((blocksSpec msg).foldl
            (fun st mm =>
              (⟨st.v0 ^^^ mm, st.v1, st.v2, st.v3 ^^^ mm⟩ : SipState))
            (initState key)).v0 ^^^
          ((blocksSpec msg).foldl
              (fun st mm =>
                (⟨st.v0 ^^^ mm, st.v1, st.v2, st.v3 ^^^ mm⟩ : SipState))
              (initState key)).v1 ^^^
          (((blocksSpec msg).foldl
              (fun st mm =>
                (⟨st.v0 ^^^ mm, st.v1, st.v2, st.v3 ^^^ mm⟩ : SipState))
              (initState key)).v2 ^^^ 0xff) ^^^
          ((blocksSpec msg).foldl
              (fun st mm =>
                (⟨st.v0 ^^^ mm, st.v1, st.v2, st.v3 ^^^ mm⟩ : SipState))
              (initState key)).v3) := by
  constructor
  · intro s m c hc
    constructor <;>
      simp only [DIGEST_BLOCK, apply_block, Int.toNat_of_nonpos hc,
        Function.iterate_zero, id_eq]
  · intro key msg hbytes
    exact hash_eq_blocks key msg 0 0 hbytes

/-- C9 witness at a concrete state, word and message. -/
theorem c9_witness :
    (DIGEST_BLOCK ⟨1, 2, 3, 4⟩ 7 0 = ⟨(1 : Nat) ^^^ 7, 2, 3, 4 ^^^ 7⟩ ∧
     apply_block ⟨1, 2, 3, 4⟩ 7 0 = ⟨(1 : Nat) ^^^ 7, 2, 3, 4 ^^^ 7⟩) ∧
    hash (List.range 16) [9] 0 0 =
      ((blocksSpec [9]).foldl
          (fun st mm =>
            (⟨st.v0 ^^^ mm, st.v1, st.v2, st.v3 ^^^ mm⟩ : SipState))
          (initState (List.range 16))).v0 ^^^
        ((blocksSpec [9]).foldl
            (fun st mm =>
              (⟨st.v0 ^^^ mm, st.v1, st.v2, st.v3 ^^^ mm⟩ : SipState))
            (initState (List.range 16))).v1 ^^^
        (((blocksSpec [9]).foldl
            (fun st mm =>
              (⟨st.v0 ^^^ mm, st.v1, st.v2, st.v3 ^^^ mm⟩ : SipState))
            (initState (List.range 16))).v2 ^^^ 0xff) ^^^
        ((blocksSpec [9]).foldl
            (fun st mm =>
              (⟨st.v0 ^^^ mm, st.v1, st.v2, st.v3 ^^^ mm⟩ : SipState))
            (initState (List.range 16))).v3 :=
  ⟨c9_degenerate_rounds.1 ⟨1, 2, 3, 4⟩ 7 0 (by decide),
   c9_degenerate_rounds.2 (List.range 16) [9] (by decide)⟩

/-- C10 (counter-evidence): the encoder of `util.c` renders the value
according to the caller-supplied template — a non-enumerated template
such as `"%lu"` is interpreted and produces output outside the closed
hex/binary set, so the entry points do not restrict output styles to a
closed enumeration. -/
theorem c10_format_interprets_template :
    format 9 [0x25, 0x6c, 0x75] = [0x39] ∧
    format 9 [0x25, 0x30, 0x31, 0x36, 0x6c, 0x78] =
      [48, 48, 48, 48, 48, 48, 48, 48, 48, 48, 48, 48, 48, 48, 48, 57] ∧
    format 9 [0x25, 0x6c, 0x75] ≠
      format 9 [0x25, 0x30, 0x31, 0x36, 0x6c, 0x78] :=
  ⟨by decide, by decide, by decide⟩

end SipHashC
